import Mathlib

/-!
# Verification of the Preston micro-app suite

Shallow embedding of the business logic of three micro-apps:

* the Phorest commission calculator and its `/api/phorest/commissions`
  route (`src/app/api/phorest/commissions/route.ts`, design doc, and the
  Phorest result types);
* the time-clock kiosk and reports (`src/lib/timeClockHooks.ts` and the
  kiosk component);
* the Signed-to-Sealed e-signature workflow (`SigningView.tsx`, the
  envelope-detail component, and the SQL schema).

Timestamps are modelled as integer milliseconds since the epoch (the code
uses `Date.getTime()`); fractional hour values as rationals (the code
uses JS floats, but every operation involved here is exact decimal
arithmetic); JS strings as `List Char`.
-/

namespace Preston

/-! ## JS string primitives

JS `s1 > s2` on strings is lexicographic comparison of code units; the
date strings involved are plain ASCII so comparing `Char` values agrees
with comparing UTF-16 code units. -/

/-- Lexicographic strict order on character lists, as JS `<` on strings. -/
def jsStrLt : List Char → List Char → Bool
  | [], [] => false
  | [], _ :: _ => true
  | _ :: _, [] => false
  | a :: as, b :: bs => if a < b then true else if b < a then false else jsStrLt as bs

/-- The route's `dateRegex = /^\d{4}-\d{2}-\d{2}$/` test. -/
def dateRegexTest (s : List Char) : Bool :=
  match s with
  | [y1, y2, y3, y4, d1, m1, m2, d2, a1, a2] =>
      y1.isDigit && y2.isDigit && y3.isDigit && y4.isDigit &&
      (d1 = '-') && m1.isDigit && m2.isDigit && (d2 = '-') &&
      a1.isDigit && a2.isDigit
  | _ => false

/-- JS falsiness of an optional string request field (`!startDate`):
missing / `null` (here `none`) and the empty string are falsy. -/
def jsFalsyOpt : Option (List Char) → Bool
  | none => true
  | some s => s.isEmpty

/-! ## Phorest data (from `src/types/phorest.ts`) -/

inductive ActivationState where
  | RESERVED | ACTIVE | CANCELED
deriving DecidableEq, Repr

structure PhorestBranch where
  branchId : String
  name : String
deriving DecidableEq, Repr

structure PhorestStaff where
  staffId : String
  firstName : String
  lastName : String
deriving DecidableEq, Repr

structure PhorestAppointment where
  appointmentId : String
  clientId : Option String
  staffId : String
  serviceName : String
  appointmentDate : List Char
  price : Option ℚ
  activationState : ActivationState
  deleted : Bool
deriving DecidableEq, Repr

structure PhorestClient where
  clientId : String
  firstName : String
  lastName : String
  firstVisit : Option (List Char)
deriving DecidableEq, Repr

structure ServiceCommission where
  appointmentId : String
  serviceName : String
  appointmentDate : List Char
  price : ℚ
  commission : ℚ
deriving DecidableEq, Repr

structure ClientCommission where
  clientId : String
  clientName : String
  firstVisitDate : List Char
  services : List ServiceCommission
  clientTotal : ℚ
deriving DecidableEq, Repr

structure StylistCommission where
  staffId : String
  staffName : String
  clients : List ClientCommission
  stylistTotal : ℚ
deriving DecidableEq, Repr

structure BranchCommission where
  branchId : String
  branchName : String
  stylists : List StylistCommission
  branchTotal : ℚ
deriving DecidableEq, Repr

structure CommissionResult where
  branches : List BranchCommission
  totalCommission : ℚ
  totalNewClients : Nat
  fetchedAt : List Char
deriving DecidableEq, Repr

/-- `branchDataList` entries assembled by the route: one branch together
with its staff roster and its appointments for the requested range. -/
structure BranchData where
  branch : PhorestBranch
  staff : List PhorestStaff
  appointments : List PhorestAppointment
deriving DecidableEq, Repr

/-! ## Commission calculation

`src/lib/commissionCalculator.ts` is not present in the repository
snapshot; only its caller (`route.ts`) and the design document are. The
calculator below is therefore modelled from the spec. -/

/-- First occurrence of a client by id, as a lookup over the batch-fetched
client list. -/
def findClient (clients : List PhorestClient) (cid : String) : Option PhorestClient :=
  clients.find? (fun c => c.clientId = cid)

/-- `fv` lies in the inclusive range `[s, e]` under JS string comparison. -/
def dateInRange (s e fv : List Char) : Bool :=
  !(jsStrLt fv s) && !(jsStrLt e fv)

/-- Modelled from the spec: eligibility filter of the missing
`commissionCalculator.ts`. An appointment earns commission only when it is
not canceled (`activationState !== 'CANCELED'`), not deleted, has a
non-null non-zero price, and belongs to a known client whose `firstVisit`
is non-null and falls within `[startDate, endDate]`. -/
def eligibleAppt (clients : List PhorestClient) (s e : List Char)
    (a : PhorestAppointment) : Bool :=
  decide (a.activationState ≠ .CANCELED) && !a.deleted &&
  (match a.price with
   | some p => decide (p ≠ 0)
   | none => false) &&
  (match a.clientId with
   | some cid =>
       match findClient clients cid with
       | some c =>
           match c.firstVisit with
           | some fv => dateInRange s e fv
           | none => false
       | none => false
   | none => false)

/-- The appointment's billed price, with a null price read as 0 (eligible
appointments never have a null price). -/
def apptPrice (a : PhorestAppointment) : ℚ :=
  a.price.getD 0

/-- Modelled from the spec: `commission = appointment.price * 0.2`. -/
def commissionOf (a : PhorestAppointment) : ℚ :=
  apptPrice a * (20 / 100)

/-- Modelled from the spec: one `ServiceCommission` row per eligible
appointment. -/
def serviceOf (a : PhorestAppointment) : ServiceCommission :=
  { appointmentId := a.appointmentId
    serviceName := a.serviceName
    appointmentDate := a.appointmentDate
    price := apptPrice a
    commission := commissionOf a }

/-- Insertion-order deduplication with an accumulator of already-seen
keys. -/
def dedupAux {κ : Type} [DecidableEq κ] : List κ → List κ → List κ
  | [], _ => []
  | x :: xs, seen => if x ∈ seen then dedupAux xs seen else x :: dedupAux xs (x :: seen)

/-- Insertion-order deduplication, as collecting keys into a JS `Set`
(first occurrence kept). -/
def dedupKeys {κ : Type} [DecidableEq κ] (l : List κ) : List κ :=
  dedupAux l []

/-- Modelled from the spec: the per-client rollup. `appts` are the
eligible appointments already narrowed to one stylist. -/
def calcClient (clients : List PhorestClient) (appts : List PhorestAppointment)
    (cid : String) : ClientCommission :=
  let myAppts := appts.filter (fun a => a.clientId = some cid)
  let services := myAppts.map serviceOf
  let c := findClient clients cid
  { clientId := cid
    clientName := match c with
      | some c => c.firstName ++ " " ++ c.lastName
      | none => ""
    firstVisitDate := (c.bind (·.firstVisit)).getD []
    services := services
    clientTotal := (services.map (·.commission)).sum }

/-- Modelled from the spec: the per-stylist rollup over one branch's
eligible appointments, grouping by client. -/
def calcStylist (clients : List PhorestClient) (staffList : List PhorestStaff)
    (appts : List PhorestAppointment) (sid : String) : StylistCommission :=
  let myAppts := appts.filter (fun a => a.staffId = sid)
  let cids := dedupKeys (myAppts.filterMap (·.clientId))
  let clientRows := cids.map (calcClient clients myAppts)
  { staffId := sid
    staffName := match staffList.find? (fun st => st.staffId = sid) with
      | some st => st.firstName ++ " " ++ st.lastName
      | none => "Unknown"
    clients := clientRows
    stylistTotal := (clientRows.map (·.clientTotal)).sum }

/-- Modelled from the spec: the per-branch rollup, filtering the branch's
appointments for eligibility and grouping by stylist. -/
def calcBranch (clients : List PhorestClient) (s e : List Char)
    (bd : BranchData) : BranchCommission :=
  let eligible := bd.appointments.filter (eligibleAppt clients s e)
  let sids := dedupKeys (eligible.map (·.staffId))
  let stylists := sids.map (calcStylist clients bd.staff eligible)
  { branchId := bd.branch.branchId
    branchName := bd.branch.name
    stylists := stylists
    branchTotal := (stylists.map (·.stylistTotal)).sum }

/-- Modelled from the spec: clients whose first-ever visit falls in the
requested range (`totalNewClients`). -/
def qualifyingClients (clients : List PhorestClient) (s e : List Char) : Nat :=
  (clients.filter (fun c =>
    match c.firstVisit with
    | some fv => dateInRange s e fv
    | none => false)).length

/-- Modelled from the spec: `calculateCommissions` of the missing
`commissionCalculator.ts` — aggregate branch → stylist → client → service
and total up the 20% commissions. -/
def calculateCommissions (branchDataList : List BranchData)
    (clients : List PhorestClient) (s e : List Char)
    (fetchedAt : List Char) : CommissionResult :=
  let branches := branchDataList.map (calcBranch clients s e)
  { branches := branches
    totalCommission := (branches.map (·.branchTotal)).sum
    totalNewClients := qualifyingClients clients s e
    fetchedAt := fetchedAt }

/-- The flat sum of commissions over one branch's eligible appointments,
bypassing the branch → stylist → client grouping. -/
def branchEligibleSum (clients : List PhorestClient) (s e : List Char)
    (bd : BranchData) : ℚ :=
  ((bd.appointments.filter (eligibleAppt clients s e)).map commissionOf).sum

/-! ## The `/api/phorest/commissions` route (`route.ts`) -/

/-- Body of the POST request: `{ startDate, endDate, forceRefresh }`.
`none` models a missing or `null` field. -/
structure ReqBody where
  startDate : Option (List Char)
  endDate : Option (List Char)
  forceRefresh : Bool
deriving DecidableEq, Repr

/-- Row of the `phorest_commission_cache` table (the columns the route
reads and writes). -/
structure CacheRow where
  results : CommissionResult
  fetched_at : Int
  expires_at : Int
deriving DecidableEq, Repr

/-- The cache table, an association list keyed by `date_range_key`
(`date_range_key` is `UNIQUE` in the schema). -/
abbrev CacheTable := List (List Char × CacheRow)

/-- `.eq("date_range_key", k).single()` — the unique row for a key. -/
def cacheLookup (cache : CacheTable) (k : List Char) : Option CacheRow :=
  (cache.find? (fun p => p.1 = k)).map (·.2)

/-- `upsert(..., { onConflict: "date_range_key" })`: replace the row with
this (unique) key, or insert one. -/
def cacheUpsert : CacheTable → List Char → CacheRow → CacheTable
  | [], k, row => [(k, row)]
  | p :: c, k, row => if p.1 = k then (k, row) :: c else p :: cacheUpsert c k row

/-- Observable side effects of one handler run, in order. -/
inductive Effect where
  | cacheRead (key : List Char)
  | apiCall
  | cacheWrite (key : List Char)
deriving DecidableEq, Repr

/-- Environment of one request: Supabase configuration flag, current cache
contents, current time (ms), an ISO rendering of that time, and the
Phorest API as oracles (branch list, staff and appointments per branch,
batched client lookup). -/
structure RouteEnv where
  configured : Bool
  cache : CacheTable
  now : Int
  nowIso : List Char
  branches : List PhorestBranch
  staffOf : String → List PhorestStaff
  apptsOf : String → List Char → List Char → List PhorestAppointment
  clientsOf : List String → List PhorestClient

/-- HTTP response of the route. -/
inductive RouteResponse where
  | error (status : Nat) (msg : String)
  | json (r : CommissionResult)
deriving DecidableEq, Repr

/-- The set of unique client ids collected from all appointments
(`new Set` preserving insertion order; falsy `clientId` skipped). -/
def collectClientIds (bds : List BranchData) : List String :=
  dedupKeys ((bds.map (·.appointments)).flatten.filterMap (·.clientId))

/-- The full Phorest fetch + computation the route performs on a cache
miss: branch list, per-branch staff and appointments, batched clients,
then `calculateCommissions`. -/
def computeResults (env : RouteEnv) (s e : List Char) : CommissionResult :=
  let branchDataList := env.branches.map (fun b =>
    { branch := b, staff := env.staffOf b.branchId
      appointments := env.apptsOf b.branchId s e : BranchData })
  let clients := env.clientsOf (collectClientIds branchDataList)
  calculateCommissions branchDataList clients s e env.nowIso

/-- `CACHE_TTL_HOURS = 1` as milliseconds (`setHours(getHours() + 1)`,
modelled without daylight-saving shifts). -/
def cacheTtlMs : Int := 3600000

/-- The cache check of `route.ts`: only performed when Supabase is
configured and `forceRefresh` is not set, and a row only counts when its
`expires_at` is still in the future. -/
def cacheHit (env : RouteEnv) (key : List Char) (forceRefresh : Bool) : Option CacheRow :=
  if env.configured && !forceRefresh then
    match cacheLookup env.cache key with
    | some row => if env.now < row.expires_at then some row else none
    | none => none
  else none

/-- Everything `route.ts` does after validation succeeds: cache check,
Phorest fetch, commission calculation, cache upsert. -/
def postProceed (env : RouteEnv) (s e : List Char) (forceRefresh : Bool) :
    RouteResponse × CacheTable × List Effect :=
  let key := s ++ ['_'] ++ e
  let readEffects := if env.configured && !forceRefresh then [Effect.cacheRead key] else []
  match cacheHit env key forceRefresh with
  | some row => (.json row.results, env.cache, readEffects)
  | none =>
      let results := computeResults env s e
      if env.configured then
        (.json results,
         cacheUpsert env.cache key
           { results := results, fetched_at := env.now,
             expires_at := env.now + cacheTtlMs },
         readEffects ++ [.apiCall, .cacheWrite key])
      else
        (.json results, env.cache, readEffects ++ [.apiCall])

/-- The POST handler of `route.ts`: validation, then `postProceed`.
Returns the response, the cache contents after the request, and the trace
of effects. -/
def POST (env : RouteEnv) (body : ReqBody) :
    RouteResponse × CacheTable × List Effect :=
  if jsFalsyOpt body.startDate || jsFalsyOpt body.endDate then
    (.error 400 "startDate and endDate are required", env.cache, [])
  else
    let s := body.startDate.getD []
    let e := body.endDate.getD []
    if !(dateRegexTest s) || !(dateRegexTest e) then
      (.error 400 "Dates must be in YYYY-MM-DD format", env.cache, [])
    else if jsStrLt e s then
      (.error 400 "startDate must be before endDate", env.cache, [])
    else
      postProceed env s e body.forceRefresh

/-- The row `route.ts` writes after a fresh computation: results plus
`fetched_at = now` and `expires_at = now + 1h`. -/
def freshCacheRow (env : RouteEnv) (s e : List Char) : CacheRow :=
  { results := computeResults env s e
    fetched_at := env.now
    expires_at := env.now + cacheTtlMs }

/-- A concrete client whose first visit falls in January 2024. -/
def exClient : PhorestClient :=
  { clientId := "c1", firstName := "Ada", lastName := "L",
    firstVisit := some "2024-01-10".toList }

/-- A concrete active, priced appointment of that client. -/
def exAppt : PhorestAppointment :=
  { appointmentId := "a1", clientId := some "c1", staffId := "s1",
    serviceName := "Cut", appointmentDate := "2024-01-10".toList,
    price := some 100, activationState := .ACTIVE, deleted := false }

def exStaff : PhorestStaff :=
  { staffId := "s1", firstName := "Sty", lastName := "One" }

def exBranchData : BranchData :=
  { branch := { branchId := "b1", name := "Main" },
    staff := [exStaff], appointments := [exAppt] }

/-- A small concrete environment: Supabase configured, empty cache, no
branches. -/
def exEnv : RouteEnv :=
  { configured := true
    cache := []
    now := 0
    nowIso := []
    branches := []
    staffOf := fun _ => []
    apptsOf := fun _ _ _ => []
    clientsOf := fun _ => [] }

/-! ## Signed-to-Sealed (schema, `SigningView.tsx`, envelope detail) -/

/-- `sts_envelopes.status` check constraint. -/
inductive EnvStatus where
  | draft | sent | in_progress | completed | voided
deriving DecidableEq, Repr

/-- `sts_recipients.role` check constraint. -/
inductive RecipRole where
  | signer | cc | in_person
deriving DecidableEq, Repr

/-- `sts_recipients.status` check constraint. -/
inductive RecipStatus where
  | pending | viewed | signed | declined
deriving DecidableEq, Repr

/-- A `sts_recipients` row (the columns the modelled logic touches). -/
structure STSRecipient where
  id : Nat
  envelope_id : Nat
  role : RecipRole
  status : RecipStatus
  access_token : Nat
deriving DecidableEq, Repr

/-- A `sts_envelopes` row (the columns the modelled logic touches). -/
structure STSEnvelope where
  id : Nat
  status : EnvStatus
deriving DecidableEq, Repr

/-- The recipient-status write of `handleSubmit`: set the submitting
recipient's row to `signed`. -/
def signedUpdate (recips : List STSRecipient) (rid : Nat) : List STSRecipient :=
  recips.map (fun r =>
    if r.id = rid then { r with status := RecipStatus.signed } else r)

/-- `allSigned` of `handleSubmit`: every signer among the (re-fetched)
recipients is the submitter or has status `signed`. -/
def allSignersSigned (recips : List STSRecipient) (rid : Nat) : Bool :=
  (recips.filter (fun r => decide (r.role = RecipRole.signer))).all
    (fun r => decide (r.id = rid) || decide (r.status = RecipStatus.signed))

/-- The status-level effect of `handleSubmit` in `SigningView.tsx`: the
submitting recipient's row is set to `signed`, the recipients are
re-fetched, and the envelope is set to `completed` when every signer is
the submitter or already `signed`, else to `in_progress`. `recips` are
the envelope's recipients; the result is the new envelope status and the
new recipient rows. -/
def submitSign (recips : List STSRecipient) (rid : Nat) :
    EnvStatus × List STSRecipient :=
  (if allSignersSigned (signedUpdate recips rid) rid then EnvStatus.completed
   else EnvStatus.in_progress,
   signedUpdate recips rid)

/-- `canComplete` of the envelope-detail view: the Mark Complete button is
offered only when the envelope is `sent` or `in_progress` and every
signer's status is `signed`. -/
def canComplete (status : EnvStatus) (recips : List STSRecipient) : Bool :=
  (decide (status = EnvStatus.sent) || decide (status = EnvStatus.in_progress)) &&
  (recips.filter (fun r => decide (r.role = RecipRole.signer))).all
    (fun r => decide (r.status = RecipStatus.signed))

/-- The UI guard of the Send button: shown only on a draft envelope. -/
def sendGuard (st : EnvStatus) : Bool :=
  decide (st = EnvStatus.draft)

/-- The UI guard of the Void button: shown only on a sent or in-progress
envelope. -/
def voidGuard (st : EnvStatus) : Bool :=
  decide (st = EnvStatus.sent) || decide (st = EnvStatus.in_progress)

/-- The conditions under which `useSigningByToken` hands the signing
session to a recipient of an envelope with status `st`: the envelope is
neither voided nor completed and the recipient has not already signed. -/
def submitGuard (st : EnvStatus) (rec : STSRecipient) : Bool :=
  decide (st ≠ EnvStatus.voided) && decide (st ≠ EnvStatus.completed) &&
  decide (rec.status ≠ RecipStatus.signed)

/-- Supabase `.single()`: exactly one row, else an error. -/
def singleRow {α : Type} (l : List α) : Option α :=
  match l with
  | [r] => some r
  | _ => none

/-- `useSigningByToken`: look up the unique recipient holding the access
token, load that recipient's envelope, reject voided/completed envelopes
and already-signed recipients, and mark a pending recipient as viewed.
Returns the outcome and the recipient rows after the load. -/
def fetchByToken (envelopes : List STSEnvelope) (recipients : List STSRecipient)
    (tok : Nat) : Except String (STSRecipient × STSEnvelope) × List STSRecipient :=
  match singleRow (recipients.filter (fun r => decide (r.access_token = tok))) with
  | none => (.error "Invalid or expired signing link", recipients)
  | some rec =>
      match singleRow (envelopes.filter (fun env => decide (env.id = rec.envelope_id))) with
      | none => (.error "Failed to load signing session", recipients)
      | some env =>
          if env.status = EnvStatus.voided then
            (.error "This envelope has been voided", recipients)
          else if env.status = EnvStatus.completed then
            (.error "This envelope has already been completed", recipients)
          else if rec.status = RecipStatus.signed then
            (.error "You have already signed this document", recipients)
          else
            (.ok (rec, env),
             if rec.status = RecipStatus.pending then
               recipients.map (fun r =>
                 if r.id = rec.id then { r with status := RecipStatus.viewed } else r)
             else recipients)

/-- The status path stated by the spec: draft→sent→in_progress→completed,
with sent/in_progress also allowed to complete (Mark Complete) or void,
and a submission may leave an envelope in progress. -/
def claimPathOk (a b : EnvStatus) : Bool :=
  match a, b with
  | .draft, .sent => true
  | .sent, .in_progress => true
  | .in_progress, .in_progress => true
  | .sent, .completed => true
  | .in_progress, .completed => true
  | .sent, .voided => true
  | .in_progress, .voided => true
  | _, _ => false

/-- The spec's claim that every transition performed by the application's
operations — send, signing submission, Mark Complete, void — under their
application-level guards follows `claimPathOk`. -/
def envelopePathClaim : Prop :=
  ∀ (st : EnvStatus) (recips : List STSRecipient) (rec : STSRecipient),
    (sendGuard st = true → claimPathOk st EnvStatus.sent = true) ∧
    (submitGuard st rec = true → rec ∈ recips →
      claimPathOk st (submitSign recips rec.id).1 = true) ∧
    (canComplete st recips = true → claimPathOk st EnvStatus.completed = true) ∧
    (voidGuard st = true → claimPathOk st EnvStatus.voided = true)

/-- `claimPathOk` extended by the transitions a signing submission can
perform on a draft envelope (the token loader does not exclude drafts). -/
def amendedPathOk (a b : EnvStatus) : Bool :=
  claimPathOk a b ||
  (decide (a = EnvStatus.draft) &&
    (decide (b = EnvStatus.in_progress) || decide (b = EnvStatus.completed)))

/-! ## Time clock (`timeClockHooks.ts`, kiosk component) -/

/-- A `tc_time_entries` row (the columns the modelled logic touches);
timestamps in integer milliseconds. -/
structure TCTimeEntry where
  id : Nat
  employee_id : Nat
  clock_in : Int
  clock_out : Option Int
deriving DecidableEq, Repr

/-- A `tc_employees` row (the columns the modelled logic touches). -/
structure TCEmp where
  id : Nat
  is_active : Bool
deriving DecidableEq, Repr

/-- `overtime` settings row: thresholds in hours. -/
structure OvertimeSettings where
  daily_threshold : ℚ
  weekly_threshold : ℚ
deriving DecidableEq, Repr

/-- `getOpenEntry`: the first entry of this employee with no clock-out. -/
def getOpenEntry (entries : List TCTimeEntry) (eid : Nat) : Option TCTimeEntry :=
  entries.find? (fun e => decide (e.employee_id = eid) && decide (e.clock_out = none))

/-- `clockIn`: insert a fresh open entry (prepended, as in the hook's
state update). -/
def clockInEntries (entries : List TCTimeEntry) (eid newId : Nat) (t : Int) :
    List TCTimeEntry :=
  { id := newId, employee_id := eid, clock_in := t, clock_out := none } :: entries

/-- `clockOut`: fill `clock_out` on the entry with this id. -/
def clockOutEntries (entries : List TCTimeEntry) (entryId : Nat) (t : Int) :
    List TCTimeEntry :=
  entries.map (fun e => if e.id = entryId then { e with clock_out := some t } else e)

/-- One kiosk action for a confirmed employee: the action screen offers
Clock Out exactly when an open entry exists (closing that entry) and
Clock In otherwise (inserting a fresh open entry). -/
def kioskAction (entries : List TCTimeEntry) (eid newId : Nat) (t : Int) :
    List TCTimeEntry :=
  match getOpenEntry entries eid with
  | some o => clockOutEntries entries o.id t
  | none => clockInEntries entries eid newId t

/-- Number of open entries of one employee. -/
def openCount (entries : List TCTimeEntry) (eid : Nat) : Nat :=
  entries.countP (fun e => decide (e.employee_id = eid) && decide (e.clock_out = none))

/-- The convention the kiosk maintains: at most one open entry per
employee. -/
def atMostOneOpen (entries : List TCTimeEntry) : Prop :=
  ∀ eid, openCount entries eid ≤ 1

/-- `getHours`: elapsed hours of an entry, an open entry counted up to
`now`. -/
def getHours (now : Int) (e : TCTimeEntry) : ℚ :=
  (((e.clock_out.getD now) - e.clock_in : Int) : ℚ) / 3600000

/-- JS `Math.round(x * 100) / 100` (round half towards +∞). -/
def jsRound2 (q : ℚ) : ℚ :=
  (⌊q * 100 + 1 / 2⌋ : ℚ) / 100

/-- Summed hours of one employee over the entries whose clock-in lies in
`[lo, hi]`. -/
def empRangeHours (entries : List TCTimeEntry) (now : Int) (eid : Nat)
    (lo hi : Int) : ℚ :=
  ((entries.filter (fun e => decide (e.employee_id = eid) &&
      decide (lo ≤ e.clock_in) && decide (e.clock_in ≤ hi))).map (getHours now)).sum

/-- One row of `getWeeklySummary`. -/
structure WeeklyRow where
  employee : TCEmp
  dailyHours : List ℚ
  weeklyTotal : ℚ
  isWeeklyOvertime : Bool
  dailyOvertimeFlags : List Bool
deriving DecidableEq, Repr

/-- The unrounded per-day totals of `getWeeklySummary` for one employee:
the employee's entries of the Monday-start week (bucketed by clock-in),
re-bucketed into the seven days `[dayStart, dayStart + 24h - 1ms]` and
summed. -/
def weekDayTotals (entries : List TCTimeEntry) (now weekStart : Int)
    (eid : Nat) : List ℚ :=
  let weekEnd := weekStart + 7 * 86400000 - 1
  let empEntries := entries.filter (fun e => decide (e.employee_id = eid) &&
    decide (weekStart ≤ e.clock_in) && decide (e.clock_in ≤ weekEnd))
  (List.range 7).map (fun (i : ℕ) =>
    let dayStart := weekStart + (i : Int) * 86400000
    let dayEnd := dayStart + 86400000 - 1
    ((empEntries.filter (fun e => decide (dayStart ≤ e.clock_in) &&
        decide (e.clock_in ≤ dayEnd))).map (getHours now)).sum)

/-- The row `getWeeklySummary` builds for one employee: rounded daily
hours, daily overtime flags from the unrounded day totals, the weekly
total as the sum of the rounded day totals, and the weekly overtime flag
from that sum. -/
def weeklyRowFor (entries : List TCTimeEntry) (ot : OvertimeSettings)
    (now weekStart : Int) (emp : TCEmp) : WeeklyRow :=
  let dayTotals := weekDayTotals entries now weekStart emp.id
  let dailyHours := dayTotals.map jsRound2
  let weeklyTotal := dailyHours.sum
  { employee := emp
    dailyHours := dailyHours
    weeklyTotal := jsRound2 weeklyTotal
    isWeeklyOvertime := decide (ot.weekly_threshold < weeklyTotal)
    dailyOvertimeFlags := dayTotals.map (fun d => decide (ot.daily_threshold < d)) }

/-- `getWeeklySummary`: one row per active employee. -/
def getWeeklySummary (employees : List TCEmp) (entries : List TCTimeEntry)
    (ot : OvertimeSettings) (now weekStart : Int) : List WeeklyRow :=
  (employees.filter (fun emp => emp.is_active)).map (weeklyRowFor entries ot now weekStart)

/-- One row of `getDailyEntries`. -/
structure DailyRow where
  employee : TCEmp
  entry : TCTimeEntry
  hours : ℚ
  isOvertime : Bool
  isStale : Bool
deriving DecidableEq, Repr

/-- `getDailyEntries`: one row per entry clocked in on the given day
whose employee exists, flagged overtime when the employee's whole-day
total strictly exceeds the daily threshold. -/
def getDailyEntries (employees : List TCEmp) (entries : List TCTimeEntry)
    (ot : OvertimeSettings) (now dayStart : Int) : List DailyRow :=
  let dayEnd := dayStart + 86400000 - 1
  (entries.filter (fun e => decide (dayStart ≤ e.clock_in) &&
      decide (e.clock_in ≤ dayEnd))).filterMap (fun entry =>
    match employees.find? (fun emp => decide (emp.id = entry.employee_id)) with
    | none => none
    | some emp =>
        let totalDayHours := empRangeHours entries now entry.employee_id dayStart dayEnd
        some { employee := emp
               entry := entry
               hours := getHours now entry
               isOvertime := decide (ot.daily_threshold < totalDayHours)
               isStale := if entry.clock_out.isSome then false
                 else decide ((12 : ℚ) < getHours now entry) })

/-- The week-start loop of `getMonthlySummary`: starts `d` and advances
by seven days while `d ≤ monthEnd`. -/
def weekStartsAux (monthEnd : Int) (d : Int) : List Int :=
  if d ≤ monthEnd then d :: weekStartsAux monthEnd (d + 604800000)
  else []
termination_by (monthEnd + 604800000 - d).toNat
decreasing_by omega

/-- The Monday-start weeks overlapping a month: from the first Monday on
or before the month start (`mondayOffset` days back) while the week start
is at most `monthEnd`. -/
def monthWeeks (monthStart monthEnd : Int) (mondayOffset : Nat) : List Int :=
  weekStartsAux monthEnd (monthStart - (mondayOffset : Int) * 86400000)

/-- One row of `getMonthlySummary`. -/
structure MonthlyRow where
  employee : TCEmp
  weeklyHours : List ℚ
  monthlyTotal : ℚ
deriving DecidableEq, Repr

/-- The row `getMonthlySummary` builds for one employee: per-week rounded
totals over `[weekStart, weekStart + 7d - 1ms]` and their rounded sum. -/
def monthlyRowFor (entries : List TCTimeEntry) (now : Int) (weeks : List Int)
    (emp : TCEmp) : MonthlyRow :=
  let weeklyHours := weeks.map (fun ws =>
    jsRound2 (empRangeHours entries now emp.id ws (ws + 7 * 86400000 - 1)))
  { employee := emp
    weeklyHours := weeklyHours
    monthlyTotal := jsRound2 weeklyHours.sum }

/-- `getMonthlySummary`: one row per active employee over the month's
weeks. -/
def getMonthlySummary (employees : List TCEmp) (entries : List TCTimeEntry)
    (now monthStart monthEnd : Int) (mondayOffset : Nat) : List MonthlyRow :=
  (employees.filter (fun emp => emp.is_active)).map
    (monthlyRowFor entries now (monthWeeks monthStart monthEnd mondayOffset))

/-! ### List partition lemmas -/

theorem mem_dedupAux {κ : Type} [DecidableEq κ] (l : List κ) :
    ∀ (seen : List κ) (x : κ), x ∈ dedupAux l seen ↔ (x ∈ l ∧ x ∉ seen) := by
  induction l with
  | nil => intro seen x; simp [dedupAux]
  | cons a xs ih =>
      intro seen x
      by_cases ha : a ∈ seen
      · rw [dedupAux, if_pos ha, ih]
        constructor
        · exact fun ⟨h1, h2⟩ => ⟨List.mem_cons_of_mem a h1, h2⟩
        · rintro ⟨h1, h2⟩
          rcases List.mem_cons.mp h1 with rfl | h1
          · exact absurd ha h2
          · exact ⟨h1, h2⟩
      · rw [dedupAux, if_neg ha]
        constructor
        · intro h
          rcases List.mem_cons.mp h with rfl | h
          · exact ⟨List.mem_cons_self x xs, ha⟩
          · obtain ⟨h1, h2⟩ := (ih (a :: seen) x).mp h
            exact ⟨List.mem_cons_of_mem a h1,
              fun hx => h2 (List.mem_cons_of_mem a hx)⟩
        · rintro ⟨h1, h2⟩
          rcases List.mem_cons.mp h1 with rfl | h1
          · exact List.mem_cons_self x _
          · by_cases hxa : x = a
            · exact hxa ▸ List.mem_cons_self a _
            · refine List.mem_cons_of_mem a ((ih (a :: seen) x).mpr ⟨h1, ?_⟩)
              intro hx
              rcases List.mem_cons.mp hx with h | h
              · exact hxa h
              · exact h2 h

theorem nodup_dedupAux {κ : Type} [DecidableEq κ] (l : List κ) :
    ∀ seen : List κ, (dedupAux l seen).Nodup := by
  induction l with
  | nil => intro seen; simp [dedupAux]
  | cons a xs ih =>
      intro seen
      by_cases ha : a ∈ seen
      · rw [dedupAux, if_pos ha]; exact ih seen
      · rw [dedupAux, if_neg ha]
        refine List.nodup_cons.mpr ⟨?_, ih (a :: seen)⟩
        intro hmem
        exact ((mem_dedupAux xs (a :: seen) a).mp hmem).2 (List.mem_cons_self a seen)

theorem mem_dedupKeys {κ : Type} [DecidableEq κ] (l : List κ) (x : κ) :
    x ∈ dedupKeys l ↔ x ∈ l := by
  rw [dedupKeys, mem_dedupAux]
  simp

theorem nodup_dedupKeys {κ : Type} [DecidableEq κ] (l : List κ) :
    (dedupKeys l).Nodup :=
  nodup_dedupAux l []

theorem sum_map_filter_add_not {α : Type} (p : α → Bool) (f : α → ℚ) (l : List α) :
    ((l.filter p).map f).sum + ((l.filter (fun a => !(p a))).map f).sum
      = (l.map f).sum := by
  induction l with
  | nil => simp
  | cons a l ih =>
      cases hpa : p a with
      | true => simp only [List.filter_cons, hpa]; simp [← ih]; ring
      | false => simp only [List.filter_cons, hpa]; simp [← ih]; ring

/-- Summing a function fiberwise over a duplicate-free list of keys that
covers every element equals summing it over the whole list. -/
theorem sum_fiberwise {α κ : Type} [DecidableEq κ] (f : α → ℚ) (k : α → κ) :
    ∀ (keys : List κ) (l : List α), keys.Nodup → (∀ a ∈ l, k a ∈ keys) →
      (keys.map (fun x => ((l.filter (fun a => k a = x)).map f).sum)).sum
        = (l.map f).sum := by
  intro keys
  induction keys with
  | nil =>
      intro l _ hcov
      cases l with
      | nil => simp
      | cons a l => exact absurd (hcov a (List.mem_cons_self a l)) (List.not_mem_nil _)
  | cons x rest ih =>
      intro l hnd hcov
      have hx_notin : x ∉ rest := (List.nodup_cons.mp hnd).1
      have hrest_nd : rest.Nodup := (List.nodup_cons.mp hnd).2
      have hsplit := sum_map_filter_add_not (fun a => k a = x) f l
      have hfibers :
          (rest.map (fun y => ((l.filter (fun a => k a = y)).map f).sum)).sum
            = ((l.filter (fun a => !(k a = x))).map f).sum := by
        rw [← ih (l.filter (fun a => !(k a = x))) hrest_nd ?_]
        · congr 1
          refine List.map_congr_left ?_
          intro y hy
          congr 1
          rw [List.filter_filter]
          congr 1
          refine List.filter_congr ?_
          intro a _
          by_cases hka : k a = y
          · have hne : ¬ (k a = x) := by
              intro hxy
              rw [hka] at hxy
              exact hx_notin (hxy ▸ hy)
            simp [hka, hne]
            exact fun h => hx_notin (h ▸ hy)
          · simp [hka]
        · intro a ha
          have hmem := List.mem_filter.mp ha
          have hka := hcov a hmem.1
          rcases List.mem_cons.mp hka with h | h
          · exfalso
            have := hmem.2
            rw [h] at this
            simp at this
          · exact h
      calc (List.map (fun y => ((l.filter (fun a => k a = y)).map f).sum) (x :: rest)).sum
          = ((l.filter (fun a => k a = x)).map f).sum +
            (rest.map (fun y => ((l.filter (fun a => k a = y)).map f).sum)).sum := by
            simp
        _ = ((l.filter (fun a => k a = x)).map f).sum +
            ((l.filter (fun a => !(k a = x))).map f).sum := by rw [hfibers]
        _ = (l.map f).sum := hsplit

/-! ### Commission calculation lemmas -/

theorem eligibleAppt_iff (clients : List PhorestClient) (s e : List Char)
    (a : PhorestAppointment) :
    eligibleAppt clients s e a = true ↔
      (a.activationState ≠ .CANCELED ∧ a.deleted = false ∧
       (∃ p, a.price = some p ∧ p ≠ 0) ∧
       (∃ cid c fv, a.clientId = some cid ∧ findClient clients cid = some c ∧
         c.firstVisit = some fv ∧ dateInRange s e fv = true)) := by
  unfold eligibleAppt
  cases hp : a.price with
  | none => simp [hp]
  | some p =>
      cases hcid : a.clientId with
      | none => simp [hp, hcid]
      | some cid =>
          cases hc : findClient clients cid with
          | none => simp [hp, hcid, hc]
          | some c =>
              cases hfv : c.firstVisit with
              | none => simp [hp, hcid, hc, hfv]
              | some fv =>
                  simp [hp, hcid, hc, hfv, and_assoc]

theorem eligible_clientId_isSome (clients : List PhorestClient) (s e : List Char)
    (a : PhorestAppointment) (h : eligibleAppt clients s e a = true) :
    ∃ cid, a.clientId = some cid := by
  obtain ⟨-, -, -, cid, -, -, hcid, -⟩ := (eligibleAppt_iff clients s e a).mp h
  exact ⟨cid, hcid⟩

theorem calcClient_total (clients : List PhorestClient)
    (appts : List PhorestAppointment) (cid : String) :
    (calcClient clients appts cid).clientTotal =
      ((appts.filter (fun a => a.clientId = some cid)).map commissionOf).sum := by
  unfold calcClient
  simp only [List.map_map]
  refine congrArg List.sum (List.map_congr_left ?_)
  intro a _
  rfl

theorem calcStylist_total (clients : List PhorestClient)
    (staffList : List PhorestStaff) (appts : List PhorestAppointment) (sid : String)
    (hcid : ∀ a ∈ appts, a.staffId = sid → ∃ cid, a.clientId = some cid) :
    (calcStylist clients staffList appts sid).stylistTotal =
      ((appts.filter (fun a => a.staffId = sid)).map commissionOf).sum := by
  unfold calcStylist
  simp only [List.map_map]
  have hcomp :
      ((dedupKeys ((appts.filter (fun a => a.staffId = sid)).filterMap (·.clientId))).map
        ((fun r => r.clientTotal) ∘ calcClient clients (appts.filter (fun a => a.staffId = sid)))) =
      ((dedupKeys ((appts.filter (fun a => a.staffId = sid)).filterMap (·.clientId))).map some).map
        (fun x => (((appts.filter (fun a => a.staffId = sid)).filter
          (fun a => a.clientId = x)).map commissionOf).sum) := by
    rw [List.map_map]
    refine List.map_congr_left ?_
    intro cid _
    simp only [Function.comp]
    exact calcClient_total clients (appts.filter (fun a => a.staffId = sid)) cid
  rw [hcomp]
  refine sum_fiberwise commissionOf (fun a => a.clientId) _ _ ?_ ?_
  · exact ((nodup_dedupKeys _).map (Option.some_injective _))
  · intro a ha
    have ha' := List.mem_filter.mp ha
    obtain ⟨cid, hacid⟩ := hcid a ha'.1 (by simpa using ha'.2)
    show a.clientId ∈ _
    rw [hacid]
    refine List.mem_map.mpr ⟨cid, ?_, rfl⟩
    rw [mem_dedupKeys]
    exact List.mem_filterMap.mpr ⟨a, ha, hacid⟩

theorem calcBranch_total (clients : List PhorestClient) (s e : List Char)
    (bd : BranchData) :
    (calcBranch clients s e bd).branchTotal = branchEligibleSum clients s e bd := by
  unfold calcBranch branchEligibleSum
  simp only [List.map_map]
  have hcomp :
      ((dedupKeys ((bd.appointments.filter (eligibleAppt clients s e)).map (·.staffId))).map
        ((fun r => r.stylistTotal) ∘
          calcStylist clients bd.staff (bd.appointments.filter (eligibleAppt clients s e)))) =
      (dedupKeys ((bd.appointments.filter (eligibleAppt clients s e)).map (·.staffId))).map
        (fun sid => (((bd.appointments.filter (eligibleAppt clients s e)).filter
          (fun a => a.staffId = sid)).map commissionOf).sum) := by
    refine List.map_congr_left ?_
    intro sid _
    simp only [Function.comp]
    refine calcStylist_total clients bd.staff _ sid ?_
    intro a ha _
    exact eligible_clientId_isSome clients s e a (List.mem_filter.mp ha).2
  rw [hcomp]
  refine sum_fiberwise commissionOf (fun a => a.staffId) _ _ (nodup_dedupKeys _) ?_
  intro a ha
  rw [mem_dedupKeys]
  exact List.mem_map.mpr ⟨a, ha, rfl⟩

/-- C1: every service row in the commission rollup stems from an eligible
appointment and carries `commission = price × 0.20`; the grand total is the
flat sum of `price × 0.20` over exactly the eligible appointments; and
eligibility means: not canceled, not deleted, non-null non-zero price, and
a known client whose non-null first-visit date lies in `[startDate,
endDate]` — so canceled/deleted/unpriced appointments and clients without
a first-visit date are excluded from all totals. -/
theorem commission_rule (branchDataList : List BranchData)
    (clients : List PhorestClient) (s e fetchedAt : List Char) :
    (calculateCommissions branchDataList clients s e fetchedAt).totalCommission
      = (branchDataList.map (branchEligibleSum clients s e)).sum ∧
    (∀ bc ∈ (calculateCommissions branchDataList clients s e fetchedAt).branches,
      ∀ sty ∈ bc.stylists, ∀ cl ∈ sty.clients, ∀ svc ∈ cl.services,
        ∃ bd, bd ∈ branchDataList ∧ ∃ a, a ∈ bd.appointments ∧
          eligibleAppt clients s e a = true ∧ svc = serviceOf a ∧
          svc.commission = svc.price * (20 / 100)) ∧
    (∀ a : PhorestAppointment, eligibleAppt clients s e a = true ↔
      (a.activationState ≠ .CANCELED ∧ a.deleted = false ∧
       (∃ p, a.price = some p ∧ p ≠ 0) ∧
       (∃ cid c fv, a.clientId = some cid ∧ findClient clients cid = some c ∧
         c.firstVisit = some fv ∧ dateInRange s e fv = true))) := by
  refine ⟨?_, ?_, eligibleAppt_iff clients s e⟩
  · unfold calculateCommissions
    simp only [List.map_map]
    refine congrArg List.sum (List.map_congr_left ?_)
    intro bd _
    exact calcBranch_total clients s e bd
  · intro bc hbc sty hsty cl hcl svc hsvc
    simp only [calculateCommissions, List.mem_map] at hbc
    obtain ⟨bd, hbd, rfl⟩ := hbc
    refine ⟨bd, hbd, ?_⟩
    simp only [calcBranch, List.mem_map] at hsty
    obtain ⟨sid, hsid, rfl⟩ := hsty
    simp only [calcStylist, List.mem_map] at hcl
    obtain ⟨cid, hcidmem, rfl⟩ := hcl
    simp only [calcClient, List.mem_map] at hsvc
    obtain ⟨a, hamem, rfl⟩ := hsvc
    have h1 := List.mem_filter.mp hamem
    have h2 := List.mem_filter.mp h1.1
    have h3 := List.mem_filter.mp h2.1
    exact ⟨a, h3.1, h3.2, rfl, rfl⟩

/-- Witness for C1 at a one-branch, one-appointment, one-client input. -/
theorem commission_rule_witness :
    (calculateCommissions [exBranchData] [exClient]
        "2024-01-01".toList "2024-01-31".toList []).totalCommission
      = ([exBranchData].map
          (branchEligibleSum [exClient] "2024-01-01".toList "2024-01-31".toList)).sum :=
  (commission_rule [exBranchData] [exClient]
    "2024-01-01".toList "2024-01-31".toList []).1

/-! ### Route lemmas -/

theorem dateRegexTest_not_isEmpty {s : List Char} (h : dateRegexTest s = true) :
    s.isEmpty = false := by
  cases s with
  | nil => simp [dateRegexTest] at h
  | cons a l => simp [List.isEmpty]

theorem jsStrLt_irrefl (l : List Char) : jsStrLt l l = false := by
  induction l with
  | nil => rfl
  | cons a as ih => simp [jsStrLt, ih]

theorem postProceed_isJson (env : RouteEnv) (s e : List Char) (fr : Bool) :
    ∃ r, (postProceed env s e fr).1 = .json r := by
  cases hh : cacheHit env (s ++ '_' :: e) fr with
  | some row => exact ⟨row.results, by simp [postProceed, hh]⟩
  | none =>
      cases hc : env.configured with
      | true => exact ⟨computeResults env s e, by simp [postProceed, hh, hc]⟩
      | false => exact ⟨computeResults env s e, by simp [postProceed, hh, hc]⟩

theorem POST_valid (env : RouteEnv) (s e : List Char) (fr : Bool)
    (hrs : dateRegexTest s = true) (hre : dateRegexTest e = true)
    (hord : jsStrLt e s = false) :
    POST env { startDate := some s, endDate := some e, forceRefresh := fr } =
      postProceed env s e fr := by
  unfold POST
  simp [jsFalsyOpt, dateRegexTest_not_isEmpty hrs, dateRegexTest_not_isEmpty hre,
    hrs, hre, hord]

/-- C5: a POST body missing `startDate` or `endDate`, or carrying a date
that does not match `YYYY-MM-DD`, yields an HTTP 400 with an error
message, leaves the cache untouched, and performs no cache read, no cache
write and no external API call. -/
theorem commissions_validation_short_circuit (env : RouteEnv) (body : ReqBody)
    (h : body.startDate = none ∨ body.endDate = none ∨
         (∃ s, body.startDate = some s ∧ dateRegexTest s = false) ∨
         (∃ e, body.endDate = some e ∧ dateRegexTest e = false)) :
    (∃ msg, (POST env body).1 = .error 400 msg) ∧
    (POST env body).2.1 = env.cache ∧ (POST env body).2.2 = [] := by
  unfold POST
  by_cases hfal : (jsFalsyOpt body.startDate || jsFalsyOpt body.endDate) = true
  · simp [hfal]
  · have hfal' := hfal
    simp only [Bool.or_eq_true, not_or, Bool.not_eq_true] at hfal'
    obtain ⟨hs, he⟩ := hfal'
    obtain ⟨s, hsd⟩ : ∃ s, body.startDate = some s := by
      cases hbs : body.startDate with
      | none => rw [hbs] at hs; simp [jsFalsyOpt] at hs
      | some s => exact ⟨s, rfl⟩
    obtain ⟨e, hed⟩ : ∃ e, body.endDate = some e := by
      cases hbe : body.endDate with
      | none => rw [hbe] at he; simp [jsFalsyOpt] at he
      | some e => exact ⟨e, rfl⟩
    have hbad : (!(dateRegexTest (body.startDate.getD [])) ||
        !(dateRegexTest (body.endDate.getD []))) = true := by
      rcases h with h | h | ⟨s', hs', hreg⟩ | ⟨e', he', hreg⟩
      · rw [h] at hsd; cases hsd
      · rw [h] at hed; cases hed
      · rw [hs', Option.getD_some, hreg]; rfl
      · rw [he', Option.getD_some, hreg]; simp
    simp only [Bool.not_eq_true] at hfal
    simp [hfal, hbad]

/-- C9: once both dates are well-formed, the "startDate must be before
endDate" 400 is returned exactly when `startDate` is lexicographically
strictly greater than `endDate`; with `startDate = endDate` the handler
proceeds to computation and answers with a JSON result. -/
theorem commissions_equal_dates_accepted (env : RouteEnv) (body : ReqBody)
    (s e : List Char) (hs : body.startDate = some s) (he : body.endDate = some e)
    (hrs : dateRegexTest s = true) (hre : dateRegexTest e = true) :
    ((POST env body).1 = .error 400 "startDate must be before endDate" ↔
      jsStrLt e s = true) ∧
    (s = e → ∃ r, (POST env body).1 = .json r) := by
  obtain ⟨bs, be, bf⟩ := body
  simp only at hs he
  subst hs he
  constructor
  · by_cases hlt : jsStrLt e s = true
    · unfold POST
      simp [jsFalsyOpt, dateRegexTest_not_isEmpty hrs, dateRegexTest_not_isEmpty hre,
        hrs, hre, hlt]
    · simp only [Bool.not_eq_true] at hlt
      rw [POST_valid env s e bf hrs hre hlt]
      simp only [hlt, Bool.false_eq_true, iff_false]
      obtain ⟨r, hr⟩ := postProceed_isJson env s e bf
      rw [hr]
      intro hc; cases hc
  · intro hse
    have hlt : jsStrLt e s = false := by rw [hse]; exact jsStrLt_irrefl e
    rw [POST_valid env s e bf hrs hre hlt]
    exact postProceed_isJson env s e bf

theorem cacheLookup_upsert (c : CacheTable) (k : List Char) (row : CacheRow) :
    cacheLookup (cacheUpsert c k row) k = some row := by
  induction c with
  | nil => simp [cacheLookup, cacheUpsert, List.find?]
  | cons p c ih =>
      by_cases h : p.1 = k
      · unfold cacheUpsert
        rw [if_pos h]
        unfold cacheLookup
        rw [List.find?_cons_of_pos _ (by simp)]
        rfl
      · unfold cacheUpsert
        rw [if_neg h]
        unfold cacheLookup
        rw [List.find?_cons_of_neg _ (by simp [h])]
        exact ih

/-- C6: with Supabase configured and the cache not hit (miss, expired row,
or `forceRefresh`), a validated request computes, answers with the fresh
results, and upserts them under `startDate ++ "_" ++ endDate` with
`expires_at = now + 1h`; any later request for the same range against
that cache, before the expiry and without `forceRefresh`, answers with
exactly the cached results and performs no external API call and no cache
write. -/
theorem commissions_cache_roundtrip (env : RouteEnv) (s e : List Char) (fr : Bool)
    (hrs : dateRegexTest s = true) (hre : dateRegexTest e = true)
    (hord : jsStrLt e s = false) (hconf : env.configured = true)
    (hmiss : cacheHit env (s ++ ['_'] ++ e) fr = none) :
    POST env { startDate := some s, endDate := some e, forceRefresh := fr } =
      (.json (computeResults env s e),
       cacheUpsert env.cache (s ++ ['_'] ++ e) (freshCacheRow env s e),
       (if fr then [] else [.cacheRead (s ++ ['_'] ++ e)]) ++
         [.apiCall, .cacheWrite (s ++ ['_'] ++ e)]) ∧
    cacheLookup
      (POST env { startDate := some s, endDate := some e, forceRefresh := fr }).2.1
      (s ++ ['_'] ++ e) = some (freshCacheRow env s e) ∧
    (∀ env2 : RouteEnv, env2.configured = true →
      env2.cache =
        (POST env { startDate := some s, endDate := some e, forceRefresh := fr }).2.1 →
      env2.now < env.now + cacheTtlMs →
      POST env2 { startDate := some s, endDate := some e, forceRefresh := false } =
        (.json (computeResults env s e), env2.cache,
         [.cacheRead (s ++ ['_'] ++ e)])) := by
  have hpost :
      POST env { startDate := some s, endDate := some e, forceRefresh := fr } =
        (.json (computeResults env s e),
         cacheUpsert env.cache (s ++ ['_'] ++ e) (freshCacheRow env s e),
         (if fr then [] else [.cacheRead (s ++ ['_'] ++ e)]) ++
           [.apiCall, .cacheWrite (s ++ ['_'] ++ e)]) := by
    rw [POST_valid env s e fr hrs hre hord]
    simp only [postProceed, List.singleton_append] at hmiss ⊢
    rw [hmiss]
    cases fr with
    | true => simp [hconf, freshCacheRow]
    | false => simp [hconf, freshCacheRow]
  refine ⟨hpost, ?_, ?_⟩
  · rw [hpost]
    exact cacheLookup_upsert _ _ _
  · intro env2 hconf2 hcache2 hfresh
    rw [POST_valid env2 s e false hrs hre hord]
    have hlook : cacheLookup env2.cache (s ++ ['_'] ++ e) = some (freshCacheRow env s e) := by
      rw [hcache2, hpost]
      exact cacheLookup_upsert _ _ _
    have hhit : cacheHit env2 (s ++ ['_'] ++ e) false = some (freshCacheRow env s e) := by
      unfold cacheHit
      rw [hlook]
      simp [hconf2, freshCacheRow]
      exact hfresh
    simp only [postProceed, List.singleton_append] at hhit ⊢
    rw [hhit]
    simp [hconf2, freshCacheRow]

/-- Witness for C6 at a concrete January 2024 request against an empty
cache. -/
theorem commissions_cache_roundtrip_witness :
    POST exEnv
        { startDate := some "2024-01-01".toList, endDate := some "2024-01-31".toList,
          forceRefresh := false } =
      (.json (computeResults exEnv "2024-01-01".toList "2024-01-31".toList),
       cacheUpsert exEnv.cache ("2024-01-01".toList ++ ['_'] ++ "2024-01-31".toList)
         (freshCacheRow exEnv "2024-01-01".toList "2024-01-31".toList),
       [.cacheRead ("2024-01-01".toList ++ ['_'] ++ "2024-01-31".toList),
        .apiCall,
        .cacheWrite ("2024-01-01".toList ++ ['_'] ++ "2024-01-31".toList)]) :=
  (commissions_cache_roundtrip exEnv "2024-01-01".toList "2024-01-31".toList false
    (by decide) (by decide) (by decide) rfl (by decide)).1

/-- Witness for C5 at a concrete request with a missing `startDate`. -/
theorem commissions_validation_short_circuit_witness :
    (∃ msg,
      (POST exEnv
        { startDate := none, endDate := some "2024-01-01".toList,
          forceRefresh := false }).1 = .error 400 msg) ∧
    (POST exEnv
        { startDate := none, endDate := some "2024-01-01".toList,
          forceRefresh := false }).2.1 = exEnv.cache ∧
    (POST exEnv
        { startDate := none, endDate := some "2024-01-01".toList,
          forceRefresh := false }).2.2 = [] :=
  commissions_validation_short_circuit exEnv _ (Or.inl rfl)

/-- Witness for C9 at the concrete equal dates `2024-01-05`/`2024-01-05`. -/
theorem commissions_equal_dates_accepted_witness :
    ((POST exEnv
        { startDate := some "2024-01-05".toList, endDate := some "2024-01-05".toList,
          forceRefresh := false }).1 =
        .error 400 "startDate must be before endDate" ↔
      jsStrLt "2024-01-05".toList "2024-01-05".toList = true) ∧
    ("2024-01-05".toList = "2024-01-05".toList →
      ∃ r, (POST exEnv
        { startDate := some "2024-01-05".toList, endDate := some "2024-01-05".toList,
          forceRefresh := false }).1 = .json r) :=
  commissions_equal_dates_accepted exEnv _ _ _ rfl rfl (by decide) (by decide)

/-! ### Signed-to-Sealed lemmas -/

theorem mem_signedUpdate_of_id {recips : List STSRecipient} {rid : Nat}
    {r : STSRecipient} (hr : r ∈ signedUpdate recips rid) (hid : r.id = rid) :
    r.status = RecipStatus.signed := by
  obtain ⟨r0, hr0, hmap⟩ := List.mem_map.mp hr
  by_cases h0 : r0.id = rid
  · rw [if_pos h0] at hmap
    rw [← hmap]
  · rw [if_neg h0] at hmap
    rw [← hmap] at hid
    exact absurd hid h0

/-- C2: an envelope is never set to `completed` while a signer is not
`signed`: the signing submission completes the envelope only when every
signer in the updated recipient rows has status `signed`, and the Mark
Complete action is offered only on a `sent` or `in_progress` envelope all
of whose signers have status `signed`. -/
theorem envelope_completed_requires_all_signed
    (st : EnvStatus) (recips : List STSRecipient) (rid : Nat) :
    ((submitSign recips rid).1 = EnvStatus.completed →
      ∀ r ∈ (submitSign recips rid).2, r.role = RecipRole.signer →
        r.status = RecipStatus.signed) ∧
    (canComplete st recips = true →
      (st = EnvStatus.sent ∨ st = EnvStatus.in_progress) ∧
      ∀ r ∈ recips, r.role = RecipRole.signer → r.status = RecipStatus.signed) := by
  constructor
  · intro hcomp r hr hrole
    by_cases hall : allSignersSigned (signedUpdate recips rid) rid = true
    · have hfilter : r ∈ (signedUpdate recips rid).filter
          (fun r => decide (r.role = RecipRole.signer)) :=
        List.mem_filter.mpr ⟨hr, by simp [hrole]⟩
      have := List.all_eq_true.mp hall r hfilter
      rcases Bool.or_eq_true_iff.mp this with h | h
      · exact mem_signedUpdate_of_id hr (of_decide_eq_true h)
      · exact of_decide_eq_true h
    · exfalso
      unfold submitSign at hcomp
      rw [if_neg hall] at hcomp
      exact EnvStatus.noConfusion hcomp
  · intro hcan
    unfold canComplete at hcan
    obtain ⟨hst, hall⟩ := Bool.and_eq_true_iff.mp hcan
    constructor
    · rcases Bool.or_eq_true_iff.mp hst with h | h
      · exact Or.inl (of_decide_eq_true h)
      · exact Or.inr (of_decide_eq_true h)
    · intro r hr hrole
      have hfilter : r ∈ recips.filter (fun r => decide (r.role = RecipRole.signer)) :=
        List.mem_filter.mpr ⟨hr, by simp [hrole]⟩
      exact of_decide_eq_true (List.all_eq_true.mp hall r hfilter)

/-- Witness for C2 at a two-signer envelope where the second signer
submits after the first has signed. -/
theorem envelope_completed_requires_all_signed_witness :
    ((submitSign
        [⟨1, 7, RecipRole.signer, RecipStatus.signed, 11⟩,
         ⟨2, 7, RecipRole.signer, RecipStatus.viewed, 12⟩] 2).1 = EnvStatus.completed →
      ∀ r ∈ (submitSign
        [⟨1, 7, RecipRole.signer, RecipStatus.signed, 11⟩,
         ⟨2, 7, RecipRole.signer, RecipStatus.viewed, 12⟩] 2).2,
        r.role = RecipRole.signer → r.status = RecipStatus.signed) ∧
    (canComplete EnvStatus.sent
        [⟨1, 7, RecipRole.signer, RecipStatus.signed, 11⟩,
         ⟨2, 7, RecipRole.signer, RecipStatus.viewed, 12⟩] = true →
      (EnvStatus.sent = EnvStatus.sent ∨ EnvStatus.sent = EnvStatus.in_progress) ∧
      ∀ r ∈ ([⟨1, 7, RecipRole.signer, RecipStatus.signed, 11⟩,
              ⟨2, 7, RecipRole.signer, RecipStatus.viewed, 12⟩] : List STSRecipient),
        r.role = RecipRole.signer → r.status = RecipStatus.signed) :=
  envelope_completed_requires_all_signed EnvStatus.sent
    [⟨1, 7, RecipRole.signer, RecipStatus.signed, 11⟩,
     ⟨2, 7, RecipRole.signer, RecipStatus.viewed, 12⟩] 2

/-- C3 counterexample: the token loader admits a draft envelope (it
rejects only voided/completed ones), so a signing submission on a draft
envelope with a single pending signer is permitted and moves the envelope
straight from `draft` to `completed` — a transition outside the claimed
path. -/
theorem envelope_path_counterexample :
    (¬ envelopePathClaim) ∧
    (fetchByToken [⟨0, EnvStatus.draft⟩]
        [⟨1, 0, RecipRole.signer, RecipStatus.pending, 42⟩] 42).1 =
      .ok (⟨1, 0, RecipRole.signer, RecipStatus.pending, 42⟩, ⟨0, EnvStatus.draft⟩) ∧
    (submitSign [⟨1, 0, RecipRole.signer, RecipStatus.pending, 42⟩] 1).1 =
      EnvStatus.completed ∧
    claimPathOk EnvStatus.draft EnvStatus.completed = false := by
  refine ⟨?_, by rfl, by decide, by decide⟩
  intro h
  have hstep := (h EnvStatus.draft
    [⟨1, 0, RecipRole.signer, RecipStatus.pending, 42⟩]
    ⟨1, 0, RecipRole.signer, RecipStatus.pending, 42⟩).2.1
    (by decide) (by decide)
  revert hstep
  decide

/-- C3 (amended): under the application's guards, send moves `draft` to
`sent`, a signing submission moves a non-voided non-completed envelope to
`in_progress` or `completed` (so on a draft envelope it can jump straight
to `in_progress` or `completed`), Mark Complete completes a `sent` or
`in_progress` envelope, and void voids a `sent` or `in_progress`
envelope; every such transition lies on the claimed path extended by the
two draft-submission jumps. -/
theorem envelope_path_amended (st : EnvStatus) (recips : List STSRecipient)
    (rec : STSRecipient) :
    (sendGuard st = true → amendedPathOk st EnvStatus.sent = true) ∧
    (submitGuard st rec = true → rec ∈ recips →
      amendedPathOk st (submitSign recips rec.id).1 = true) ∧
    (canComplete st recips = true → amendedPathOk st EnvStatus.completed = true) ∧
    (voidGuard st = true → amendedPathOk st EnvStatus.voided = true) := by
  refine ⟨?_, ?_, ?_, ?_⟩
  · intro h
    have := of_decide_eq_true h
    subst this
    decide
  · intro h _
    have hres : (submitSign recips rec.id).1 = EnvStatus.completed ∨
        (submitSign recips rec.id).1 = EnvStatus.in_progress := by
      unfold submitSign
      by_cases hall : allSignersSigned (signedUpdate recips rec.id) rec.id = true
      · rw [if_pos hall]; exact Or.inl rfl
      · rw [if_neg hall]; exact Or.inr rfl
    simp only [submitGuard, Bool.and_eq_true_iff, decide_eq_true_eq] at h
    obtain ⟨⟨hv, hc⟩, -⟩ := h
    rcases hres with hres | hres <;> rw [hres] <;> cases st <;>
      first | rfl | exact absurd rfl hv | exact absurd rfl hc
  · intro h
    unfold canComplete at h
    obtain ⟨hst, -⟩ := Bool.and_eq_true_iff.mp h
    rcases Bool.or_eq_true_iff.mp hst with h' | h' <;>
      rw [of_decide_eq_true h'] <;> rfl
  · intro h
    rcases Bool.or_eq_true_iff.mp h with h' | h' <;>
      rw [of_decide_eq_true h'] <;> rfl

/-- Witness for the amended C3 at a draft envelope with one pending
signer: the draft-submission jump to `completed` is on the extended
path. -/
theorem envelope_path_amended_witness :
    (sendGuard EnvStatus.draft = true →
      amendedPathOk EnvStatus.draft EnvStatus.sent = true) ∧
    (submitGuard EnvStatus.draft ⟨1, 0, RecipRole.signer, RecipStatus.pending, 42⟩ = true →
      ⟨1, 0, RecipRole.signer, RecipStatus.pending, 42⟩ ∈
        ([⟨1, 0, RecipRole.signer, RecipStatus.pending, 42⟩] : List STSRecipient) →
      amendedPathOk EnvStatus.draft
        (submitSign [⟨1, 0, RecipRole.signer, RecipStatus.pending, 42⟩] 1).1 = true) ∧
    (canComplete EnvStatus.draft [⟨1, 0, RecipRole.signer, RecipStatus.pending, 42⟩] = true →
      amendedPathOk EnvStatus.draft EnvStatus.completed = true) ∧
    (voidGuard EnvStatus.draft = true →
      amendedPathOk EnvStatus.draft EnvStatus.voided = true) :=
  envelope_path_amended EnvStatus.draft
    [⟨1, 0, RecipRole.signer, RecipStatus.pending, 42⟩]
    ⟨1, 0, RecipRole.signer, RecipStatus.pending, 42⟩

theorem singleRow_eq_some {α : Type} {l : List α} {x : α} :
    singleRow l = some x ↔ l = [x] := by
  cases l with
  | nil => simp [singleRow]
  | cons a t =>
      cases t with
      | nil => simp [singleRow]
      | cons b t2 => simp [singleRow]

/-- C4: a successful token load resolves to the unique holder of the
token and to that recipient's envelope; the load errors when no recipient
holds the token, when the envelope is voided or completed, or when the
recipient has already signed; and a successful load of a pending
recipient marks that recipient as viewed. -/
theorem signing_token_session (envelopes : List STSEnvelope)
    (recipients : List STSRecipient) (tok : Nat) :
    (∀ rec env, (fetchByToken envelopes recipients tok).1 = .ok (rec, env) →
      recipients.countP (fun r => decide (r.access_token = tok)) = 1 ∧
      rec ∈ recipients ∧ rec.access_token = tok ∧
      env ∈ envelopes ∧ env.id = rec.envelope_id) ∧
    (recipients.filter (fun r => decide (r.access_token = tok)) = [] →
      (fetchByToken envelopes recipients tok).1 =
        .error "Invalid or expired signing link") ∧
    (∀ rec env,
      recipients.filter (fun r => decide (r.access_token = tok)) = [rec] →
      envelopes.filter (fun x => decide (x.id = rec.envelope_id)) = [env] →
      ((env.status = EnvStatus.voided →
         (fetchByToken envelopes recipients tok).1 =
           .error "This envelope has been voided") ∧
       (env.status ≠ EnvStatus.voided → env.status = EnvStatus.completed →
         (fetchByToken envelopes recipients tok).1 =
           .error "This envelope has already been completed") ∧
       (env.status ≠ EnvStatus.voided → env.status ≠ EnvStatus.completed →
         rec.status = RecipStatus.signed →
         (fetchByToken envelopes recipients tok).1 =
           .error "You have already signed this document") ∧
       (env.status ≠ EnvStatus.voided → env.status ≠ EnvStatus.completed →
         rec.status = RecipStatus.pending →
         (fetchByToken envelopes recipients tok).1 = .ok (rec, env) ∧
         ∀ r ∈ (fetchByToken envelopes recipients tok).2, r.id = rec.id →
           r.status = RecipStatus.viewed))) := by
  refine ⟨?_, ?_, ?_⟩
  · intro rec env hok
    unfold fetchByToken at hok
    cases h1 : singleRow (recipients.filter (fun r => decide (r.access_token = tok))) with
    | none => simp [h1] at hok
    | some rec0 =>
        simp only [h1] at hok
        cases h2 : singleRow (envelopes.filter (fun x => decide (x.id = rec0.envelope_id))) with
        | none => simp [h2] at hok
        | some env0 =>
            simp only [h2] at hok
            by_cases hv : env0.status = EnvStatus.voided
            · simp [if_pos hv] at hok
            · rw [if_neg hv] at hok
              by_cases hc : env0.status = EnvStatus.completed
              · simp [if_pos hc] at hok
              · rw [if_neg hc] at hok
                by_cases hs : rec0.status = RecipStatus.signed
                · simp [if_pos hs] at hok
                · rw [if_neg hs] at hok
                  simp only at hok
                  obtain ⟨rfl, rfl⟩ : rec0 = rec ∧ env0 = env := by
                    have hpair := Except.ok.inj hok
                    exact ⟨congrArg Prod.fst hpair, congrArg Prod.snd hpair⟩
                  have hf1 := singleRow_eq_some.mp h1
                  have hf2 := singleRow_eq_some.mp h2
                  have hrmem : rec0 ∈ recipients.filter
                      (fun r => decide (r.access_token = tok)) := by
                    rw [hf1]; exact List.mem_singleton.mpr rfl
                  have hemem : env0 ∈ envelopes.filter
                      (fun x => decide (x.id = rec0.envelope_id)) := by
                    rw [hf2]; exact List.mem_singleton.mpr rfl
                  have hr := List.mem_filter.mp hrmem
                  have he := List.mem_filter.mp hemem
                  refine ⟨?_, hr.1, of_decide_eq_true hr.2, he.1, of_decide_eq_true he.2⟩
                  rw [List.countP_eq_length_filter, hf1]
                  rfl
  · intro hempty
    unfold fetchByToken
    rw [hempty]
    rfl
  · intro rec env hf1 hf2
    have h1 : singleRow (recipients.filter (fun r => decide (r.access_token = tok)))
        = some rec := singleRow_eq_some.mpr hf1
    have h2 : singleRow (envelopes.filter (fun x => decide (x.id = rec.envelope_id)))
        = some env := singleRow_eq_some.mpr hf2
    refine ⟨?_, ?_, ?_, ?_⟩
    · intro hv
      unfold fetchByToken
      simp only [h1, h2]
      rw [if_pos hv]
    · intro hv hc
      unfold fetchByToken
      simp only [h1, h2]
      rw [if_neg hv, if_pos hc]
    · intro hv hc hs
      unfold fetchByToken
      simp only [h1, h2]
      rw [if_neg hv, if_neg hc, if_pos hs]
    · intro hv hc hp
      have hs : ¬ rec.status = RecipStatus.signed := by rw [hp]; intro h; cases h
      constructor
      · unfold fetchByToken
        simp only [h1, h2]
        rw [if_neg hv, if_neg hc, if_neg hs]
      · intro r hrmem hrid
        unfold fetchByToken at hrmem
        simp only [h1, h2] at hrmem
        rw [if_neg hv, if_neg hc, if_neg hs] at hrmem
        simp only [hp, if_pos rfl] at hrmem
        obtain ⟨r0, hr0, hmap⟩ := List.mem_map.mp hrmem
        by_cases h0 : r0.id = rec.id
        · rw [if_pos h0] at hmap
          rw [← hmap]
        · rw [if_neg h0] at hmap
          rw [← hmap] at hrid
          exact absurd hrid h0

/-- Witness for C4 at a one-recipient, one-envelope state with a pending
signer on a sent envelope. -/
theorem signing_token_session_witness :
    (∀ rec env,
      (fetchByToken [⟨7, EnvStatus.sent⟩]
        [⟨1, 7, RecipRole.signer, RecipStatus.pending, 42⟩] 42).1 = .ok (rec, env) →
      ([⟨1, 7, RecipRole.signer, RecipStatus.pending, 42⟩] :
          List STSRecipient).countP (fun r => decide (r.access_token = 42)) = 1 ∧
      rec ∈ ([⟨1, 7, RecipRole.signer, RecipStatus.pending, 42⟩] : List STSRecipient) ∧
      rec.access_token = 42 ∧
      env ∈ ([⟨7, EnvStatus.sent⟩] : List STSEnvelope) ∧ env.id = rec.envelope_id) ∧
    (([⟨1, 7, RecipRole.signer, RecipStatus.pending, 42⟩] :
        List STSRecipient).filter (fun r => decide (r.access_token = 42)) = [] →
      (fetchByToken [⟨7, EnvStatus.sent⟩]
        [⟨1, 7, RecipRole.signer, RecipStatus.pending, 42⟩] 42).1 =
        .error "Invalid or expired signing link") ∧
    (∀ rec env,
      ([⟨1, 7, RecipRole.signer, RecipStatus.pending, 42⟩] :
        List STSRecipient).filter (fun r => decide (r.access_token = 42)) = [rec] →
      ([⟨7, EnvStatus.sent⟩] : List STSEnvelope).filter
        (fun x => decide (x.id = rec.envelope_id)) = [env] →
      ((env.status = EnvStatus.voided →
         (fetchByToken [⟨7, EnvStatus.sent⟩]
           [⟨1, 7, RecipRole.signer, RecipStatus.pending, 42⟩] 42).1 =
           .error "This envelope has been voided") ∧
       (env.status ≠ EnvStatus.voided → env.status = EnvStatus.completed →
         (fetchByToken [⟨7, EnvStatus.sent⟩]
           [⟨1, 7, RecipRole.signer, RecipStatus.pending, 42⟩] 42).1 =
           .error "This envelope has already been completed") ∧
       (env.status ≠ EnvStatus.voided → env.status ≠ EnvStatus.completed →
         rec.status = RecipStatus.signed →
         (fetchByToken [⟨7, EnvStatus.sent⟩]
           [⟨1, 7, RecipRole.signer, RecipStatus.pending, 42⟩] 42).1 =
           .error "You have already signed this document") ∧
       (env.status ≠ EnvStatus.voided → env.status ≠ EnvStatus.completed →
         rec.status = RecipStatus.pending →
         (fetchByToken [⟨7, EnvStatus.sent⟩]
           [⟨1, 7, RecipRole.signer, RecipStatus.pending, 42⟩] 42).1 = .ok (rec, env) ∧
         ∀ r ∈ (fetchByToken [⟨7, EnvStatus.sent⟩]
           [⟨1, 7, RecipRole.signer, RecipStatus.pending, 42⟩] 42).2, r.id = rec.id →
           r.status = RecipStatus.viewed))) :=
  signing_token_session [⟨7, EnvStatus.sent⟩]
    [⟨1, 7, RecipRole.signer, RecipStatus.pending, 42⟩] 42

/-! ### Time-clock lemmas -/

/-- C7: one kiosk action preserves "at most one open entry per employee":
with an open entry present only Clock Out is offered and it fills that
entry's `clock_out`; with none, only Clock In is offered and it inserts a
fresh entry with `clock_out` unset. -/
theorem kiosk_one_open_entry (entries : List TCTimeEntry) (eid newId : Nat)
    (t : Int) (hinv : atMostOneOpen entries) :
    atMostOneOpen (kioskAction entries eid newId t) ∧
    (∀ o, getOpenEntry entries eid = some o →
      kioskAction entries eid newId t = clockOutEntries entries o.id t ∧
      ∀ r ∈ kioskAction entries eid newId t, r.id = o.id → r.clock_out = some t) ∧
    (getOpenEntry entries eid = none →
      kioskAction entries eid newId t =
        { id := newId, employee_id := eid, clock_in := t, clock_out := none }
          :: entries) := by
  refine ⟨?_, ?_, ?_⟩
  · intro eid'
    unfold kioskAction
    cases ho : getOpenEntry entries eid with
    | some o =>
        have hle : openCount (clockOutEntries entries o.id t) eid'
            ≤ openCount entries eid' := by
          unfold openCount clockOutEntries
          rw [List.countP_map]
          refine List.countP_mono_left ?_
          intro e he hpe
          by_cases hid : e.id = o.id
          · exfalso
            simp only [Function.comp, if_pos hid] at hpe
            simp at hpe
          · simpa only [Function.comp, if_neg hid] using hpe
        exact le_trans hle (hinv eid')
    | none =>
        unfold clockInEntries openCount
        rw [List.countP_cons]
        by_cases heid : eid' = eid
        · subst heid
          have hzero : entries.countP (fun e => decide (e.employee_id = eid') &&
              decide (e.clock_out = none)) = 0 := by
            refine List.countP_eq_zero.mpr ?_
            intro e he
            have := List.find?_eq_none.mp ho e he
            simpa using this
          rw [hzero]
          simp
        · have hne : ¬ (eid = eid') := fun h => heid h.symm
          simp [hne]
          exact hinv eid'
  · intro o ho
    have hact : kioskAction entries eid newId t = clockOutEntries entries o.id t := by
      unfold kioskAction
      rw [ho]
    refine ⟨hact, ?_⟩
    intro r hr hrid
    rw [hact] at hr
    obtain ⟨r0, hr0, hmap⟩ := List.mem_map.mp hr
    by_cases h0 : r0.id = o.id
    · rw [if_pos h0] at hmap
      rw [← hmap]
    · rw [if_neg h0] at hmap
      rw [← hmap] at hrid
      exact absurd hrid h0
  · intro ho
    unfold kioskAction
    rw [ho]
    rfl

theorem jsRound2_int_div (k : ℤ) : jsRound2 ((k : ℚ) / 100) = (k : ℚ) / 100 := by
  unfold jsRound2
  have h1 : ((k : ℚ) / 100) * 100 = (k : ℚ) := by field_simp
  have hf : (⌊(1 / 2 : ℚ)⌋ : ℤ) = 0 := by
    norm_num [Int.floor_eq_zero_iff, Set.mem_Ico]
  rw [h1, Int.floor_int_add, hf, add_zero]

theorem exists_int_div_sum (l : List ℚ) (h : ∀ q ∈ l, ∃ k : ℤ, q = (k : ℚ) / 100) :
    ∃ k : ℤ, l.sum = (k : ℚ) / 100 := by
  induction l with
  | nil => exact ⟨0, by simp⟩
  | cons a t ih =>
      obtain ⟨ka, hka⟩ := h a (List.mem_cons_self a t)
      obtain ⟨kt, hkt⟩ := ih (fun q hq => h q (List.mem_cons_of_mem a hq))
      refine ⟨ka + kt, ?_⟩
      rw [List.sum_cons, hka, hkt]
      push_cast
      ring

/-- A sum of already-rounded values is unchanged by another rounding. -/
theorem jsRound2_map_sum (l : List ℚ) :
    jsRound2 ((l.map jsRound2).sum) = (l.map jsRound2).sum := by
  have hall : ∀ q ∈ l.map jsRound2, ∃ k : ℤ, q = (k : ℚ) / 100 := by
    intro q hq
    obtain ⟨a, -, rfl⟩ := List.mem_map.mp hq
    exact ⟨⌊a * 100 + 1 / 2⌋, rfl⟩
  obtain ⟨k, hk⟩ := exists_int_div_sum (l.map jsRound2) hall
  rw [hk]
  exact jsRound2_int_div k

/-- Bucketing a week's entries into one of its days filters the same
entries as bucketing the whole table into that day. -/
theorem day_filter_eq (entries : List TCTimeEntry) (eid : Nat)
    (weekStart : Int) (i : Nat) (hi : i < 7) :
    (entries.filter (fun e => decide (e.employee_id = eid) &&
        decide (weekStart ≤ e.clock_in) &&
        decide (e.clock_in ≤ weekStart + 7 * 86400000 - 1))).filter
      (fun e => decide (weekStart + (i : Int) * 86400000 ≤ e.clock_in) &&
        decide (e.clock_in ≤ weekStart + (i : Int) * 86400000 + 86400000 - 1)) =
    entries.filter (fun e => decide (e.employee_id = eid) &&
      decide (weekStart + (i : Int) * 86400000 ≤ e.clock_in) &&
      decide (e.clock_in ≤ weekStart + (i : Int) * 86400000 + 86400000 - 1)) := by
  rw [List.filter_filter]
  refine List.filter_congr ?_
  intro e _
  rw [Bool.eq_iff_iff]
  simp only [Bool.and_eq_true, decide_eq_true_eq]
  omega

/-- The per-day totals of a weekly row, with the day buckets taken
directly over the whole entry table. -/
theorem weekDayTotals_eq (entries : List TCTimeEntry) (now weekStart : Int)
    (eid : Nat) :
    weekDayTotals entries now weekStart eid =
      (List.range 7).map (fun (i : ℕ) =>
        empRangeHours entries now eid (weekStart + (i : Int) * 86400000)
          (weekStart + (i : Int) * 86400000 + 86400000 - 1)) := by
  unfold weekDayTotals
  dsimp only
  refine List.map_congr_left ?_
  intro j hj
  rw [day_filter_eq entries eid weekStart j (List.mem_range.mp hj)]
  rfl

/-- Witness for C7 at the empty entry table: the kiosk clocks the
employee in and the invariant holds afterwards. -/
theorem kiosk_one_open_entry_witness :
    atMostOneOpen (kioskAction [] 5 9 100) ∧
    (∀ o, getOpenEntry [] 5 = some o →
      kioskAction [] 5 9 100 = clockOutEntries [] o.id 100 ∧
      ∀ r ∈ kioskAction [] 5 9 100, r.id = o.id → r.clock_out = some 100) ∧
    (getOpenEntry [] 5 = none →
      kioskAction [] 5 9 100 =
        { id := 9, employee_id := 5, clock_in := 100, clock_out := none } :: []) :=
  kiosk_one_open_entry [] 5 9 100 (by intro eid; simp [openCount])

/-- C8: in a weekly summary row, the i-th daily overtime flag is set
exactly when the employee's summed hours over that day (clock-in
bucketed, open entries counted up to now) strictly exceed
`daily_threshold`; the weekly overtime flag is set exactly when the
week's total (the sum of the rounded daily totals, which the final
rounding leaves unchanged) strictly exceeds `weekly_threshold`; and every
daily-log row is flagged overtime exactly when the employee's whole-day
total strictly exceeds `daily_threshold`. -/
theorem overtime_flags (employees : List TCEmp) (entries : List TCTimeEntry)
    (ot : OvertimeSettings) (now weekStart dayStart : Int) (emp : TCEmp)
    (i : Nat) (hi : i < 7) :
    ((weeklyRowFor entries ot now weekStart emp).dailyOvertimeFlags.getD i false = true ↔
      ot.daily_threshold < empRangeHours entries now emp.id
        (weekStart + (i : Int) * 86400000)
        (weekStart + (i : Int) * 86400000 + 86400000 - 1)) ∧
    ((weeklyRowFor entries ot now weekStart emp).dailyHours.getD i 0 =
      jsRound2 (empRangeHours entries now emp.id
        (weekStart + (i : Int) * 86400000)
        (weekStart + (i : Int) * 86400000 + 86400000 - 1))) ∧
    ((weeklyRowFor entries ot now weekStart emp).isWeeklyOvertime = true ↔
      ot.weekly_threshold < (weeklyRowFor entries ot now weekStart emp).weeklyTotal) ∧
    ((weeklyRowFor entries ot now weekStart emp).weeklyTotal =
      ((List.range 7).map (fun (j : ℕ) => jsRound2 (empRangeHours entries now emp.id
        (weekStart + (j : Int) * 86400000)
        (weekStart + (j : Int) * 86400000 + 86400000 - 1)))).sum) ∧
    (getWeeklySummary employees entries ot now weekStart =
      (employees.filter (fun e2 => e2.is_active)).map
        (weeklyRowFor entries ot now weekStart)) ∧
    (∀ row ∈ getDailyEntries employees entries ot now dayStart,
      (row.isOvertime = true ↔
        ot.daily_threshold < empRangeHours entries now row.entry.employee_id
          dayStart (dayStart + 86400000 - 1))) := by
  have hflags : (weeklyRowFor entries ot now weekStart emp).dailyOvertimeFlags
      = (weekDayTotals entries now weekStart emp.id).map
          (fun d => decide (ot.daily_threshold < d)) := rfl
  have hdh : (weeklyRowFor entries ot now weekStart emp).dailyHours
      = (weekDayTotals entries now weekStart emp.id).map jsRound2 := rfl
  have hwt : (weeklyRowFor entries ot now weekStart emp).weeklyTotal
      = jsRound2 (((weekDayTotals entries now weekStart emp.id).map jsRound2).sum) := rfl
  have hwo : (weeklyRowFor entries ot now weekStart emp).isWeeklyOvertime
      = decide (ot.weekly_threshold <
          ((weekDayTotals entries now weekStart emp.id).map jsRound2).sum) := rfl
  refine ⟨?_, ?_, ?_, ?_, rfl, ?_⟩
  · rw [hflags, weekDayTotals_eq, List.map_map, List.getD_eq_getElem?_getD,
      List.getElem?_map, List.getElem?_range hi]
    simp [Function.comp]
  · rw [hdh, weekDayTotals_eq, List.map_map, List.getD_eq_getElem?_getD,
      List.getElem?_map, List.getElem?_range hi]
    simp [Function.comp]
  · rw [hwo, hwt, jsRound2_map_sum]
    exact decide_eq_true_iff
  · rw [hwt, jsRound2_map_sum, weekDayTotals_eq, List.map_map]
    rfl
  · intro row hrow
    unfold getDailyEntries at hrow
    dsimp only at hrow
    obtain ⟨entry, hentry, hsome⟩ := List.mem_filterMap.mp hrow
    cases hfind : employees.find? (fun emp2 => decide (emp2.id = entry.employee_id)) with
    | none => rw [hfind] at hsome; simp at hsome
    | some emp0 =>
        rw [hfind] at hsome
        simp only at hsome
        obtain rfl := Option.some.inj hsome
        simp

theorem mem_weekStartsAux (monthEnd : Int) : ∀ d ws : Int,
    ws ∈ weekStartsAux monthEnd d ↔
      ∃ k : ℕ, ws = d + (k : Int) * 604800000 ∧ ws ≤ monthEnd := by
  refine weekStartsAux.induct monthEnd
    (fun d => ∀ ws : Int, ws ∈ weekStartsAux monthEnd d ↔
      ∃ k : ℕ, ws = d + (k : Int) * 604800000 ∧ ws ≤ monthEnd) ?_ ?_
  · intro d hle ih ws
    rw [weekStartsAux, if_pos hle]
    constructor
    · intro h
      rcases List.mem_cons.mp h with rfl | h
      · exact ⟨0, by simp, hle⟩
      · obtain ⟨k, hk, hw⟩ := (ih ws).mp h
        refine ⟨k + 1, ?_, hw⟩
        rw [hk]
        push_cast
        ring
    · rintro ⟨k, rfl, hw⟩
      cases k with
      | zero => simp
      | succ k' =>
          refine List.mem_cons_of_mem _ ((ih _).mpr ⟨k', ?_, hw⟩)
          push_cast
          ring
  · intro d hle ws
    rw [weekStartsAux, if_neg hle]
    simp only [List.not_mem_nil, false_iff]
    rintro ⟨k, rfl, hw⟩
    have hk : (0 : Int) ≤ (k : Int) := Int.ofNat_nonneg k
    omega

/-- C10: a monthly summary row's `monthlyTotal` equals the plain sum of
its per-week totals (the final rounding is a no-op on a sum of
hundredths); each per-week total sums the employee's entries clocked in
anywhere in that seven-day window, whether or not inside the month; and
the weeks start at the first Monday on or before the month start and
advance by seven days while the start is at most the month's end. -/
theorem monthly_summary (employees : List TCEmp) (entries : List TCTimeEntry)
    (now monthStart monthEnd : Int) (mondayOffset : Nat) (emp : TCEmp)
    (hmo : mondayOffset ≤ 6) :
    ((monthlyRowFor entries now (monthWeeks monthStart monthEnd mondayOffset) emp).monthlyTotal
      = (monthlyRowFor entries now (monthWeeks monthStart monthEnd mondayOffset) emp).weeklyHours.sum) ∧
    ((monthlyRowFor entries now (monthWeeks monthStart monthEnd mondayOffset) emp).weeklyHours
      = (monthWeeks monthStart monthEnd mondayOffset).map (fun ws =>
          jsRound2 (empRangeHours entries now emp.id ws (ws + 7 * 86400000 - 1)))) ∧
    (∀ ws : Int, ws ∈ monthWeeks monthStart monthEnd mondayOffset ↔
      ∃ k : ℕ, ws = monthStart - (mondayOffset : Int) * 86400000 + (k : Int) * 604800000 ∧
        ws ≤ monthEnd) ∧
    (monthStart - 6 * 86400000 ≤ monthStart - (mondayOffset : Int) * 86400000 ∧
      monthStart - (mondayOffset : Int) * 86400000 ≤ monthStart) ∧
    (getMonthlySummary employees entries now monthStart monthEnd mondayOffset
      = (employees.filter (fun e2 => e2.is_active)).map
          (monthlyRowFor entries now (monthWeeks monthStart monthEnd mondayOffset))) := by
  refine ⟨?_, rfl, ?_, ?_, rfl⟩
  · have hwh : (monthlyRowFor entries now (monthWeeks monthStart monthEnd mondayOffset) emp).weeklyHours
        = ((monthWeeks monthStart monthEnd mondayOffset).map (fun ws =>
            empRangeHours entries now emp.id ws (ws + 7 * 86400000 - 1))).map jsRound2 := by
      rw [List.map_map]
      rfl
    show jsRound2 ((monthlyRowFor entries now (monthWeeks monthStart monthEnd mondayOffset) emp).weeklyHours.sum)
        = (monthlyRowFor entries now (monthWeeks monthStart monthEnd mondayOffset) emp).weeklyHours.sum
    rw [hwh, jsRound2_map_sum]
  · intro ws
    exact mem_weekStartsAux monthEnd (monthStart - (mondayOffset : Int) * 86400000) ws
  · have hcast : (mondayOffset : Int) ≤ 6 := by exact_mod_cast hmo
    omega

/-- Witness for C10 at a 2-day Monday offset and an empty entry table. -/
theorem monthly_summary_witness :
    ((monthlyRowFor [] 0 (monthWeeks 0 100 2) ⟨1, true⟩).monthlyTotal
      = (monthlyRowFor [] 0 (monthWeeks 0 100 2) ⟨1, true⟩).weeklyHours.sum) ∧
    ((0 : Int) - 6 * 86400000 ≤ 0 - (2 : Int) * 86400000 ∧
      (0 : Int) - (2 : Int) * 86400000 ≤ 0) :=
  ⟨(monthly_summary [] [] 0 0 100 2 ⟨1, true⟩ (by decide)).1,
   (monthly_summary [] [] 0 0 100 2 ⟨1, true⟩ (by decide)).2.2.2.1⟩

/-- Witness for C8 at an empty entry table, thresholds 8/40, employee 1,
Monday index 0. -/
theorem overtime_flags_witness :
    ((weeklyRowFor [] ⟨8, 40⟩ 0 0 ⟨1, true⟩).dailyOvertimeFlags.getD 0 false = true ↔
      (8 : ℚ) < empRangeHours [] 0 1 (0 + (0 : Int) * 86400000)
        (0 + (0 : Int) * 86400000 + 86400000 - 1)) ∧
    ((weeklyRowFor [] ⟨8, 40⟩ 0 0 ⟨1, true⟩).isWeeklyOvertime = true ↔
      (40 : ℚ) < (weeklyRowFor [] ⟨8, 40⟩ 0 0 ⟨1, true⟩).weeklyTotal) :=
  ⟨(overtime_flags [] [] ⟨8, 40⟩ 0 0 0 ⟨1, true⟩ 0 (by decide)).1,
   (overtime_flags [] [] ⟨8, 40⟩ 0 0 0 ⟨1, true⟩ 0 (by decide)).2.2.1⟩

end Preston
